import Mathlib

/-!
# Attribute parser and encoding resolver of the ISO 8583 codec

A shallow embedding of `pkg/utils/types.go`: the parser of `Describe`
strings (`Attribute.ElementType`), the key listing and the lookup of a
specification table (`Attributes.Keys`, `Attributes.Get`) and the encoding
resolver (`ElementType.SetEncoding`). The validation of an `Element` belongs
to package `lib`, whose sources are not at hand; it is modelled from the
specification and marked as such.

Go strings are modelled as `List Char` (valid UTF-8 text, one `Char` per
rune), Go's `int` as `Int` with the 64-bit range made explicit where
`strconv.Atoi` enforces it, and a `(value, error)` result as `Except`.
-/

namespace Iso8583

/-! ## Go standard library: `unicode`, `strings`, `strconv`, `sort` -/

/-- White space in the sense of `unicode.IsSpace`: the Latin-1 spaces
`\t \n \v \f \r`, the blank, U+0085, U+00A0, and the other code points with
the Unicode White_Space property. -/
def isSpace (c : Char) : Bool :=
  let n := c.toNat
  (0x09 ≤ n && n ≤ 0x0D) || n == 0x20 || n == 0x85 || n == 0xA0 || n == 0x1680 ||
  (0x2000 ≤ n && n ≤ 0x200A) || n == 0x2028 || n == 0x2029 || n == 0x202F ||
  n == 0x205F || n == 0x3000

/-- The function `strings.TrimSpace`: the string without its leading and
trailing white space. -/
def trimSpace (s : List Char) : List Char :=
  ((s.dropWhile isSpace).reverse.dropWhile isSpace).reverse

/-- The function `strings.Index`: position of the first occurrence of
`substr` in `s`, `none` standing for Go's `-1`. -/
def index : List Char → List Char → Option Nat
  | [], substr => if substr.isEmpty then some 0 else none
  | c :: s, substr =>
    if substr.isPrefixOf (c :: s) then some 0 else (index s substr).map (· + 1)

/-- The function `strings.Contains`: `Index(s, substr) >= 0`. -/
def contains (s substr : List Char) : Bool :=
  (index s substr).isSome

/-- The loop of `strings.Count` for a non-empty `substr`: the number of
non-overlapping occurrences, found left to right. Every round removes at
least one character, so `fuel = len(s)` rounds are enough. -/
def countLoop (substr : List Char) : Nat → List Char → Nat
  | 0, _ => 0
  | fuel + 1, s =>
    match index s substr with
    | none => 0
    | some i => countLoop substr fuel (s.drop (i + substr.length)) + 1

/-- The function `strings.Count`. -/
def count (s substr : List Char) : Nat :=
  if substr.isEmpty then s.length + 1 else countLoop substr s.length s

/-- The loop `for i < n` of `genSplit`: cut `s` at the first separator,
at most `n` times; what is left is the last piece. -/
def genSplitLoop (sep : List Char) : Nat → List Char → List (List Char)
  | 0, s => [s]
  | n + 1, s =>
    match index s sep with
    | none => [s]
    | some m => s.take m :: genSplitLoop sep n (s.drop (m + sep.length))

/-- The function `strings.Split`, that is `genSplit(s, sep, 0, -1)`: with an
empty separator the string is exploded into its runes, otherwise it is cut
at every one of the `Count(s, sep)` separators (at most `len(s)`). -/
def split (s sep : List Char) : List (List Char) :=
  if sep.isEmpty then s.map (fun c => [c])
  else genSplitLoop sep (min (count s sep) s.length) s

/-- Size in bits of Go's `int` (`strconv.IntSize`) on a 64-bit platform. -/
def intSize : Nat := 64

/-- The digit loop of `strconv.Atoi`: the value of a string of decimal
digits, `none` on any other character. -/
def parseDigits : List Char → Nat → Option Nat
  | [], n => some n
  | ch :: s, n =>
    if '0' ≤ ch ∧ ch ≤ '9' then parseDigits s (n * 10 + (ch.toNat - '0'.toNat)) else none

/-- The function `strconv.Atoi`: an optional sign followed by one or more
decimal digits, whose value fits an `int`; `none` stands for the syntax and
range errors. -/
def atoi (s : List Char) : Option Int :=
  match s with
  | [] => none
  | '-' :: r =>
    if r.isEmpty then none
    else (parseDigits r 0).bind fun n =>
      if n ≤ 2 ^ (intSize - 1) then some (-(n : Int)) else none
  | '+' :: r =>
    if r.isEmpty then none
    else (parseDigits r 0).bind fun n =>
      if n < 2 ^ (intSize - 1) then some (n : Int) else none
  | c :: r =>
    (parseDigits (c :: r) 0).bind fun n =>
      if n < 2 ^ (intSize - 1) then some (n : Int) else none

/-- The function `strconv.Itoa` on a non-negative number: its decimal
numeral. -/
def decimal (n : Nat) : List Char :=
  Nat.toDigits 10 n

/-- The function `sort.Ints`: the numbers in increasing order. -/
def sortInts (keys : List Int) : List Int :=
  keys.insertionSort (· ≤ ·)

/-! ## Data model of `types.go` -/

/-- The length-indicator tokens, in the order they are tried. -/
def digitIndicates : List (List Char) :=
  [['.', '.', '.'], ['.', '.'], ['.'], ['-'], [' ']]

/-- The token that starts the display format. -/
def formatIndicate : List Char := [';']

/-- The token that marks a variable-length indicator. -/
def variableIndicate : List Char := ['.']

/-- One row of a specification table. -/
structure Attribute where
  Describe : List Char
  Description : List Char
deriving DecidableEq, Repr

/-- The seven encoding choices of a specification. -/
structure EncodingDefinition where
  MtiEnc : List Char
  BitmapEnc : List Char
  LengthEnc : List Char
  NumberEnc : List Char
  CharacterEnc : List Char
  BinaryEnc : List Char
  TrackEnc : List Char
deriving DecidableEq, Repr

/-- General element type for all of the data representation attributes
(the field-type descriptor). The field `Type` of the source is `Type_`. -/
structure ElementType where
  Type_ : List Char
  Length : Int
  Format : List Char
  Encoding : List Char
  Fixed : Bool
  LengthEncoding : List Char
deriving DecidableEq, Repr

/-- The data-class tags that `SetEncoding` dispatches on. They are string
constants of package `utils` declared outside `types.go`, so the resolver
takes them as a parameter. -/
structure ElementTypeTags where
  ElementTypeNumeric : List Char
  ElementTypeMti : List Char
  ElementTypeBitmap : List Char
  ElementTypeBinary : List Char
  ElementTypeMagnetic : List Char
deriving DecidableEq, Repr

/-- A specification table `map[int]Attribute`: its entries in the order a
`range` loop happens to visit them (Go leaves that order unspecified), no
key occurring twice. -/
structure Attributes where
  entries : List (Int × Attribute)
  nodupKeys : (entries.map Prod.fst).Nodup

deriving instance DecidableEq for Except

/-! ## `Attribute.ElementType` -/

/-- The body of `if strings.Contains(attribute, indicate)` inside the loop of
`Attribute.ElementType`: cut the display format off, split on the indicator,
read the nominal length and build the descriptor. `math.Pow(10, len)` is
exact for the token lengths 1, 2 and 3. The slices `splits[0]` and
`splits[len(splits)-1]` are read with a default that is never used, a split
on a non-empty separator having at least one piece (`split_ne_nil`). -/
def parseIndicate (attr indicate : List Char) : Except String ElementType :=
  let hasFormat := contains attr formatIndicate
  let formatSplits := split attr formatIndicate
  let attribute1 := if hasFormat then formatSplits.headD [] else attr
  let format := if hasFormat then trimSpace (formatSplits.getLastD []) else []
  let isFixed := !contains indicate variableIndicate
  let splits := split attribute1 indicate
  match atoi (trimSpace (splits.getLastD [])) with
  | none => .error "invalid element length"
  | some size =>
    if !isFixed && size > (10 : Int) ^ indicate.length then
      .error "invalid element length"
    else
      .ok { Type_ := trimSpace (splits.headD []), Length := size, Fixed := isFixed
            Format := format, Encoding := [], LengthEncoding := [] }

/-- The loop `for _, indicate := range digitIndicates` of
`Attribute.ElementType`: the first token contained in the whole `Describe`
string decides; when none is, the type is invalid. -/
def elementTypeLoop (attr : List Char) : List (List Char) → Except String ElementType
  | [] => .error "invalid element type"
  | indicate :: rest =>
    if contains attr indicate then parseIndicate attr indicate
    else elementTypeLoop attr rest

/-- The method `Attribute.ElementType`. -/
def Attribute.ElementType (s : Attribute) : Except String ElementType :=
  elementTypeLoop s.Describe digitIndicates

/-! ## `Attributes.Keys` -/

/-- The method `Attributes.Keys`: append every key met by the `range` loop,
then sort. -/
def Attributes.Keys (s : Attributes) : List Int :=
  sortInts (s.entries.foldl (fun keys kv => keys ++ [kv.1]) [])

/-! ## `Attributes.Get` -/

/-- The method `Attributes.Get`: the comma-ok lookup `s[number]`, an error
when the key does not exist. -/
def Attributes.Get (s : Attributes) (number : Int) : Except String Attribute :=
  match s.entries.lookup number with
  | none => .error "don't exist specification"
  | some spec => .ok spec

/-! ## `ElementType.SetEncoding` -/

/-- The method `ElementType.SetEncoding`, as the state of the two pointees
`t` and `encoding` after the call. The `switch` takes the first case equal
to `t.Type`. -/
def ElementType.SetEncoding (tags : ElementTypeTags) (t : ElementType)
    (encoding : EncodingDefinition) : ElementType × EncodingDefinition :=
  let t1 := { t with LengthEncoding := encoding.LengthEnc }
  let t2 :=
    if t1.Type_ = tags.ElementTypeNumeric then { t1 with Encoding := encoding.NumberEnc }
    else if t1.Type_ = tags.ElementTypeMti then { t1 with Encoding := encoding.MtiEnc }
    else if t1.Type_ = tags.ElementTypeBitmap then { t1 with Encoding := encoding.BitmapEnc }
    else if t1.Type_ = tags.ElementTypeBinary then { t1 with Encoding := encoding.BinaryEnc }
    else if t1.Type_ = tags.ElementTypeMagnetic then { t1 with Encoding := encoding.TrackEnc }
    else { t1 with Encoding := encoding.CharacterEnc }
  (t2, encoding)

/-- The indicator token the loop of `Attribute.ElementType` stops at: the
first one contained in the `Describe` string. -/
def indicateOf (describe : List Char) : Option (List Char) :=
  digitIndicates.find? (fun indicate => contains describe indicate)

/-! ## `Element.Validate` (package `lib`, not among the sources) -/

/-- Modelled from the spec: the data classes that the tag constants of package
`utils` name (`ElementTypeAlphabetic`, `ElementTypeNumeric`, ...). The
constants are declared outside `types.go`; the classes are those that the
spec and `TestElementStruct` list. -/
inductive DataClass where
  | alphabetic
  | numeric
  | special
  | indicate
  | binary
  | bitmap
  | alphaNumeric
  | alphaSpecial
  | numericSpecial
  | alphaNumericSpecial
  | indicateNumeric
  | magnetic
  | mti
deriving DecidableEq, Repr

/-- Modelled from the spec: the error kinds of section 7. -/
inductive ErrorKind where
  | specError
  | formatParseError
  | encodingError
  | lengthError
  | truncationError
  | consistencyError
deriving DecidableEq, Repr

/-- Modelled from the spec: the runtime unit `Element` of package `lib`
(section 3), which is absent from the sources: a field-type descriptor
together with the decoded `Value` and the `DataLength`. The data class stands
for the Type tag of the descriptor, and the bytes of `Value` are characters. -/
structure Element where
  Type_ : DataClass
  Length : Int
  Format : List Char
  Encoding : List Char
  Fixed : Bool
  LengthEncoding : List Char
  Value : List Char
  DataLength : Int
deriving DecidableEq, Repr

/-- Modelled from the spec: the data classes that `Element.Validate` supports
(sections 4.4 and 9); special, indicate, indicate-numeric, magnetic, binary
and bitmap are rejected as unsupported. -/
def DataClass.supported : DataClass → Bool
  | .special => false
  | .indicate => false
  | .indicateNumeric => false
  | .magnetic => false
  | .binary => false
  | .bitmap => false
  | _ => true

/-- Modelled from the spec: the characters of the data class `a`, the letters
`a`..`z` and `A`..`Z`. -/
def isAlpha (c : Char) : Bool :=
  (decide ('a' ≤ c) && decide (c ≤ 'z')) || (decide ('A' ≤ c) && decide (c ≤ 'Z'))

/-- Modelled from the spec: the characters of the data class `n`, the decimal
digits. -/
def isDigit (c : Char) : Bool :=
  decide ('0' ≤ c) && decide (c ≤ '9')

/-- Modelled from the spec: the characters of the data class `s`, the printable
ASCII characters that are neither letters nor digits. -/
def isSpecial (c : Char) : Bool :=
  decide (' ' ≤ c) && decide (c ≤ '~') && !isAlpha c && !isDigit c

/-- Modelled from the spec: the "type compatibility" of a character with a
supported data class (section 4.4): letters for `a`, digits for `n` and the
MTI, and the unions for `an`, `as`, `ns` and `ans`. -/
def DataClass.compatible : DataClass → Char → Bool
  | .alphabetic, c => isAlpha c
  | .numeric, c => isDigit c
  | .mti, c => isDigit c
  | .alphaNumeric, c => isAlpha c || isDigit c
  | .alphaSpecial, c => isAlpha c || isSpecial c
  | .numericSpecial, c => isDigit c || isSpecial c
  | .alphaNumericSpecial, c => isAlpha c || isDigit c || isSpecial c
  | _, _ => false

/-- Modelled from the spec: the method `Element.Validate` of package `lib`
(section 4.4), which is absent from the sources: a data class without support
is rejected, and so is a value that is not compatible with its data class; the
rejection is a consistency error (section 7). -/
def Element.Validate (e : Element) : Except ErrorKind Unit :=
  if !e.Type_.supported then .error .consistencyError
  else if e.Value.all e.Type_.compatible then .ok ()
  else .error .consistencyError

/-! ## Lemmas on the string primitives -/

theorem index_of_not_mem (c : Char) (sub s : List Char) (h : c ∉ s) :
    index s (c :: sub) = none := by
  induction s with
  | nil => simp [index]
  | cons x s ih =>
    have hx : c ≠ x := fun e => h (by simp [e])
    have hs : c ∉ s := fun e => h (by simp [e])
    simp [index, ih hs, hx]

theorem index_append_of_not_mem (c : Char) (sub pre s : List Char) (h : c ∉ pre) :
    index (pre ++ s) (c :: sub) = (index s (c :: sub)).map (· + pre.length) := by
  induction pre with
  | nil => simp
  | cons x pre ih =>
    have hx : c ≠ x := fun e => h (by simp [e])
    have hs : c ∉ pre := fun e => h (by simp [e])
    have hp : (c :: sub).isPrefixOf (x :: (pre ++ s)) = false := by
      simp [List.isPrefixOf, hx]
    rw [List.cons_append, index, hp, ih hs]
    cases index s (c :: sub) with
    | none => rfl
    | some i => simp [Nat.add_assoc]

theorem index_self_append (c : Char) (sub rest : List Char) :
    index (c :: sub ++ rest) (c :: sub) = some 0 := by
  simp [index]

theorem index_mid (c : Char) (sub pre rest : List Char) (h : c ∉ pre) :
    index (pre ++ (c :: sub ++ rest)) (c :: sub) = some pre.length := by
  rw [index_append_of_not_mem c sub pre _ h, index_self_append]
  simp

theorem contains_of_not_mem (c : Char) (sub s : List Char) (h : c ∉ s) :
    contains s (c :: sub) = false := by
  simp [contains, index_of_not_mem c sub s h]

theorem contains_mid (c : Char) (sub pre rest : List Char) (h : c ∉ pre) :
    contains (pre ++ (c :: sub ++ rest)) (c :: sub) = true := by
  rw [contains, index_mid c sub pre rest h]
  rfl

theorem countLoop_of_index_none (sub s : List Char) (fuel : Nat) (h : index s sub = none) :
    countLoop sub fuel s = 0 := by
  cases fuel <;> simp [countLoop, h]

theorem split_of_index_none (c : Char) (sub s : List Char) (h : index s (c :: sub) = none) :
    split s (c :: sub) = [s] := by
  have hc : count s (c :: sub) = 0 := by
    simp [count, countLoop_of_index_none _ _ _ h]
  simp [split, hc, genSplitLoop]

/-- Splitting on a separator that occurs once: what stands before it and what
stands after it. -/
theorem split_single (c : Char) (sub pre rest : List Char) (hpre : c ∉ pre)
    (hrest : c ∉ rest) :
    split (pre ++ (c :: sub ++ rest)) (c :: sub) = [pre, rest] := by
  have hi := index_mid c sub pre rest hpre
  have hdrop : List.drop (pre.length + (c :: sub).length) (pre ++ (c :: sub ++ rest)) = rest := by
    rw [← List.append_assoc]
    have : pre.length + (c :: sub).length = (pre ++ c :: sub).length := by simp
    rw [this, List.drop_left]
  have hlen : (pre ++ (c :: sub ++ rest)).length = (pre.length + sub.length + rest.length) + 1 := by
    simp; omega
  have hc : count (pre ++ (c :: sub ++ rest)) (c :: sub) = 1 := by
    simp only [count, List.isEmpty_cons, Bool.false_eq_true, if_false]
    rw [hlen]
    simp only [countLoop, hi, hdrop]
    rw [countLoop_of_index_none _ _ _ (index_of_not_mem c sub rest hrest)]
  have hmin : min 1 (pre.length + sub.length + rest.length + 1) = 1 := by omega
  simp only [split, List.isEmpty_cons, Bool.false_eq_true, if_false, hc, hlen, hmin,
    genSplitLoop]
  rw [hi]
  simp only [hdrop, List.take_left]

theorem split_ne_nil (s sep : List Char) (h : sep ≠ []) : split s sep ≠ [] := by
  have hg : ∀ n t, genSplitLoop sep n t ≠ [] := by
    intro n t
    cases n with
    | zero => simp [genSplitLoop]
    | succ n =>
      simp only [genSplitLoop]
      cases index t sep <;> simp
  cases sep with
  | nil => exact absurd rfl h
  | cons c sub => simp [split, hg]

theorem dropWhile_of_head (p : Char → Bool) (s : List Char)
    (h : ∀ c, s.head? = some c → p c = false) : s.dropWhile p = s := by
  cases s with
  | nil => rfl
  | cons x s => simp [List.dropWhile, h x]

/-- A string without leading and trailing white space is left as it is. -/
theorem trimSpace_eq_self (s : List Char)
    (hh : ∀ c, s.head? = some c → isSpace c = false)
    (hl : ∀ c, s.getLast? = some c → isSpace c = false) : trimSpace s = s := by
  unfold trimSpace
  rw [dropWhile_of_head isSpace s hh, dropWhile_of_head isSpace s.reverse, List.reverse_reverse]
  intro c hc
  rw [List.head?_reverse] at hc
  exact hl c hc

theorem digit_toNat (c : Char) (h : '0' ≤ c ∧ c ≤ '9') : 48 ≤ c.toNat ∧ c.toNat ≤ 57 := by
  obtain ⟨h1, h2⟩ := h
  rw [Char.le_def] at h1 h2
  exact ⟨h1, h2⟩

theorem digit_not_space (c : Char) (h : '0' ≤ c ∧ c ≤ '9') : isSpace c = false := by
  have := digit_toNat c h
  simp only [isSpace, Bool.or_eq_false_iff, Bool.and_eq_false_iff, decide_eq_false_iff_not,
    beq_eq_false_iff_ne]
  omega

theorem digit_ne (c d : Char) (h : '0' ≤ c ∧ c ≤ '9') (hd : d.toNat < 48 ∨ 57 < d.toNat) :
    c ≠ d := by
  have := digit_toNat c h
  intro e
  subst e
  omega

theorem parseDigits_isDigit (s : List Char) (m v : Nat) (h : parseDigits s m = some v) :
    ∀ c ∈ s, '0' ≤ c ∧ c ≤ '9' := by
  induction s generalizing m with
  | nil => simp
  | cons x s ih =>
    intro c hc
    by_cases hx : '0' ≤ x ∧ x ≤ '9'
    · simp only [parseDigits, hx, and_self, if_true] at h
      rcases List.mem_cons.mp hc with rfl | hc
      · exact hx
      · exact ih _ h c hc
    · simp [parseDigits, hx] at h

theorem parseDigits_snoc (ds : List Char) (d : Char) (m : Nat) :
    parseDigits (ds ++ [d]) m = (parseDigits ds m).bind (fun v => parseDigits [d] v) := by
  induction ds generalizing m with
  | nil => simp [parseDigits]
  | cons x ds ih =>
    by_cases hx : '0' ≤ x ∧ x ≤ '9'
    · rw [List.cons_append, parseDigits, if_pos hx, ih, parseDigits, if_pos hx]
    · simp [parseDigits, hx]

theorem parseDigits_digitChar (k v : Nat) (hk : k < 10) :
    parseDigits [Nat.digitChar k] v = some (v * 10 + k) := by
  have h : ∀ j, j < 10 → ('0' ≤ Nat.digitChar j ∧ Nat.digitChar j ≤ '9') ∧
      (Nat.digitChar j).toNat - '0'.toNat = j := by decide
  obtain ⟨h1, h2⟩ := h k hk
  simp only [parseDigits, h1, and_self, if_true, h2]

theorem toDigitsCore_acc (fuel n : Nat) (acc : List Char) :
    Nat.toDigitsCore 10 fuel n acc = Nat.toDigitsCore 10 fuel n [] ++ acc := by
  induction fuel generalizing n acc with
  | zero => simp [Nat.toDigitsCore]
  | succ fuel ih =>
    simp only [Nat.toDigitsCore]
    split
    · simp
    · rw [ih, ih (n / 10) [Nat.digitChar (n % 10)]]
      simp

theorem parseDigits_toDigitsCore (fuel n : Nat) (h : n < fuel) :
    parseDigits (Nat.toDigitsCore 10 fuel n []) 0 = some n ∧
      Nat.toDigitsCore 10 fuel n [] ≠ [] := by
  induction fuel generalizing n with
  | zero => omega
  | succ fuel ih =>
    simp only [Nat.toDigitsCore]
    split
    · rename_i h0
      have hn : n % 10 = n := by omega
      refine ⟨?_, by simp⟩
      rw [parseDigits_digitChar _ _ (Nat.mod_lt _ (by decide))]
      simp [hn]
    · rename_i h0
      have hlt : n / 10 < fuel := by omega
      obtain ⟨ih1, _⟩ := ih (n / 10) hlt
      rw [toDigitsCore_acc]
      refine ⟨?_, by simp⟩
      rw [parseDigits_snoc, ih1]
      simp only [Option.some_bind]
      rw [parseDigits_digitChar _ _ (Nat.mod_lt _ (by decide))]
      congr 1
      omega

theorem parseDigits_decimal (n : Nat) : parseDigits (decimal n) 0 = some n :=
  (parseDigits_toDigitsCore (n + 1) n (Nat.lt_succ_self n)).1

theorem decimal_ne_nil (n : Nat) : decimal n ≠ [] :=
  (parseDigits_toDigitsCore (n + 1) n (Nat.lt_succ_self n)).2

theorem decimal_isDigit (n : Nat) : ∀ c ∈ decimal n, '0' ≤ c ∧ c ≤ '9' :=
  parseDigits_isDigit _ _ _ (parseDigits_decimal n)

theorem decimal_not_mem (n : Nat) (d : Char) (hd : d.toNat < 48 ∨ 57 < d.toNat) :
    d ∉ decimal n := fun h =>
  digit_ne d d (decimal_isDigit n d h) hd rfl

/-- The function `strconv.Atoi` reads a decimal numeral that fits an `int`
back to its number. -/
theorem atoi_decimal (n : Nat) (h : n < 2 ^ 63) : atoi (decimal n) = some (n : Int) := by
  have hp := parseDigits_decimal n
  have hd := decimal_isDigit n
  have hne := decimal_ne_nil n
  cases hs : decimal n with
  | nil => exact absurd hs hne
  | cons c r =>
    rw [hs] at hp hd
    have hc := hd c (by simp)
    have h1 : c ≠ '-' := digit_ne c '-' hc (by decide)
    have h2 : c ≠ '+' := digit_ne c '+' hc (by decide)
    unfold atoi
    split
    · simp at *
    · rename_i heq
      simp at heq
      exact absurd heq.1 h1
    · rename_i heq
      simp at heq
      exact absurd heq.1 h2
    · rename_i c1 r1 _ _ heq
      simp only [List.cons.injEq] at heq
      obtain ⟨rfl, rfl⟩ := heq
      have h63 : n < 9223372036854775808 := by
        have e : (2 : Nat) ^ 63 = 9223372036854775808 := by norm_num
        omega
      simp [hp, intSize, h63]

theorem trimSpace_decimal (n : Nat) : trimSpace (decimal n) = decimal n := by
  apply trimSpace_eq_self
  · intro c hc
    exact digit_not_space c (decimal_isDigit n c (List.mem_of_mem_head? hc))
  · intro c hc
    exact digit_not_space c (decimal_isDigit n c (List.mem_of_mem_getLast? hc))

/-! ## Lemmas on the parser -/

theorem not_prefix_replicate (c : Char) (rest : List Char) (j k : Nat) (hr : c ∉ rest)
    (h : j < k) : ¬ (List.replicate k c <+: List.replicate j c ++ rest) := by
  rintro ⟨t, ht⟩
  obtain ⟨m, rfl⟩ : ∃ m, k = j + (m + 1) := ⟨k - j - 1, by omega⟩
  rw [List.replicate_add, List.append_assoc, List.append_cancel_left_eq] at ht
  apply hr
  rw [← ht]
  simp [List.replicate_succ]

theorem index_replicate_lt (c : Char) (rest : List Char) (j k : Nat) (hr : c ∉ rest)
    (h : j < k) : index (List.replicate j c ++ rest) (List.replicate k c) = none := by
  induction j with
  | zero =>
    obtain ⟨m, rfl⟩ : ∃ m, k = m + 1 := ⟨k - 1, by omega⟩
    simpa [List.replicate_succ] using index_of_not_mem c (List.replicate m c) rest hr
  | succ j ih =>
    have hp : (List.replicate k c).isPrefixOf (c :: (List.replicate j c ++ rest)) = false := by
      have := not_prefix_replicate c rest (j + 1) k hr h
      rw [List.replicate_succ, List.cons_append] at this
      cases hb : (List.replicate k c).isPrefixOf (c :: (List.replicate j c ++ rest)) with
      | false => rfl
      | true => exact absurd (List.isPrefixOf_iff_prefix.mp hb) this
    rw [List.replicate_succ, List.cons_append, index, hp, ih (by omega)]
    rfl

theorem contains_replicate_lt (c : Char) (tag rest : List Char) (j k : Nat) (ht : c ∉ tag)
    (hr : c ∉ rest) (h : j < k) :
    contains (tag ++ (List.replicate j c ++ rest)) (List.replicate k c) = false := by
  obtain ⟨m, rfl⟩ : ∃ m, k = m + 1 := ⟨k - 1, by omega⟩
  have h1 := index_replicate_lt c rest j (m + 1) hr h
  rw [List.replicate_succ] at h1 ⊢
  rw [contains, index_append_of_not_mem c _ tag _ ht, h1]
  rfl

theorem contains_replicate_self (c : Char) (tag rest : List Char) (k : Nat) (ht : c ∉ tag)
    (h : 0 < k) :
    contains (tag ++ (List.replicate k c ++ rest)) (List.replicate k c) = true := by
  obtain ⟨m, rfl⟩ : ∃ m, k = m + 1 := ⟨k - 1, by omega⟩
  rw [List.replicate_succ]
  exact contains_mid c _ tag rest ht

/-- The branch taken for an indicator that occurs once, in a string without a
display format. -/
theorem parseIndicate_once (c : Char) (sub tag rest : List Char) (hc : c ∉ tag)
    (hr : c ∉ rest) (hsemi : ';' ∉ tag ++ (c :: sub ++ rest)) :
    parseIndicate (tag ++ (c :: sub ++ rest)) (c :: sub) =
      match atoi (trimSpace rest) with
      | none => .error "invalid element length"
      | some size =>
        if !(!contains (c :: sub) variableIndicate) && size > (10 : Int) ^ (c :: sub).length then
          .error "invalid element length"
        else
          .ok { Type_ := trimSpace tag, Length := size, Fixed := !contains (c :: sub) variableIndicate
                Format := [], Encoding := [], LengthEncoding := [] } := by
  have hf : contains (tag ++ (c :: sub ++ rest)) formatIndicate = false :=
    contains_of_not_mem ';' [] _ hsemi
  unfold parseIndicate
  simp only [hf, Bool.false_eq_true, if_false, split_single c sub tag rest hc hr]
  rfl

theorem elementTypeLoop_dots (s : List Char) (k : Nat) (hk : k = 1 ∨ k = 2 ∨ k = 3)
    (hlt : ∀ j, k < j → j ≤ 3 → contains s (List.replicate j '.') = false)
    (hself : contains s (List.replicate k '.') = true) :
    elementTypeLoop s digitIndicates = parseIndicate s (List.replicate k '.') := by
  have h3 := hlt 3
  have h2 := hlt 2
  simp only [List.replicate] at h3 h2
  rcases hk with rfl | rfl | rfl <;> simp only [List.replicate] at hself ⊢
  · simp [digitIndicates, elementTypeLoop, h3, h2, hself]
  · simp [digitIndicates, elementTypeLoop, h3, hself]
  · simp [digitIndicates, elementTypeLoop, hself]

/-- The loop on a string without dots: the dash and the blank are tried in
turn. -/
theorem elementTypeLoop_no_dot (s : List Char) (h : '.' ∉ s) :
    elementTypeLoop s digitIndicates =
      if contains s ['-'] then parseIndicate s ['-']
      else if contains s [' '] then parseIndicate s [' ']
      else .error "invalid element type" := by
  simp [digitIndicates, elementTypeLoop, contains_of_not_mem '.' _ s h]

theorem contains_singleton (c : Char) (s : List Char) : contains s [c] = true ↔ c ∈ s := by
  constructor
  · intro h
    by_contra hc
    rw [contains_of_not_mem c [] s hc] at h
    exact Bool.false_ne_true h
  · intro h
    obtain ⟨pre, rest, hs, hpre⟩ : ∃ pre rest, s = pre ++ (c :: [] ++ rest) ∧ c ∉ pre := by
      induction s with
      | nil => simp at h
      | cons x s ih =>
        by_cases hx : c = x
        · exact ⟨[], s, by simp [hx], by simp⟩
        · have hs : c ∈ s := by
            rcases List.mem_cons.mp h with e | e
            · exact absurd e hx
            · exact e
          obtain ⟨pre, rest, e, hp⟩ := ih hs
          refine ⟨x :: pre, rest, by simp [e], ?_⟩
          simp only [List.mem_cons, not_or]
          exact ⟨hx, hp⟩
    rw [hs]
    exact contains_mid c [] pre rest hpre

/-- The only error of the branch of a found indicator is the length error. -/
theorem parseIndicate_error (s ind : List Char) (e : String)
    (h : parseIndicate s ind = .error e) : e = "invalid element length" := by
  unfold parseIndicate at h
  simp only at h
  split at h
  · exact (Except.error.inj h).symm
  · split at h
    · exact (Except.error.inj h).symm
    · cases h

/-- A descriptor built for an indicator is fixed exactly when the indicator
has no dot. -/
theorem parseIndicate_fixed (s ind : List Char) (d : ElementType)
    (h : parseIndicate s ind = .ok d) : d.Fixed = !contains ind variableIndicate := by
  unfold parseIndicate at h
  simp only at h
  split at h
  · cases h
  · split at h
    · cases h
    · rw [← Except.ok.inj h]

/-- The loop stops at the first indicator that the string contains. -/
theorem elementTypeLoop_eq_find (s : List Char) (l : List (List Char)) :
    elementTypeLoop s l =
      match l.find? (fun indicate => contains s indicate) with
      | some indicate => parseIndicate s indicate
      | none => .error "invalid element type" := by
  induction l with
  | nil => rfl
  | cons ind l ih =>
    cases hc : contains s ind with
    | true => simp [elementTypeLoop, List.find?, hc]
    | false => simp [elementTypeLoop, List.find?, hc, ih]

theorem elementTypeLoop_eq_indicateOf (s : List Char) :
    elementTypeLoop s digitIndicates =
      match indicateOf s with
      | some indicate => parseIndicate s indicate
      | none => .error "invalid element type" :=
  elementTypeLoop_eq_find s digitIndicates

theorem indicateOf_dot (s : List Char) (h : '.' ∈ s) :
    indicateOf s = some ['.', '.', '.'] ∨ indicateOf s = some ['.', '.'] ∨
      indicateOf s = some ['.'] := by
  have h1 : contains s ['.'] = true := (contains_singleton '.' s).mpr h
  unfold indicateOf digitIndicates
  cases h3 : contains s ['.', '.', '.'] <;> cases h2 : contains s ['.', '.'] <;>
    simp [List.find?, h1, h2, h3]

theorem indicateOf_no_dot (s : List Char) (h : '.' ∉ s) :
    indicateOf s =
      if contains s ['-'] then some ['-']
      else if contains s [' '] then some [' '] else none := by
  unfold indicateOf digitIndicates
  cases h4 : contains s ['-'] <;> cases h5 : contains s [' '] <;>
    simp [List.find?, contains_of_not_mem '.' _ s h, h4, h5]

theorem contains_iff_isInfix (s sub : List Char) : contains s sub = true ↔ sub <:+: s := by
  induction s with
  | nil =>
    cases sub <;> simp [contains, index]
  | cons x s ih =>
    rw [List.infix_cons_iff, ← ih, ← List.isPrefixOf_iff_prefix]
    unfold contains
    rw [index]
    cases hp : sub.isPrefixOf (x :: s) <;> cases index s sub <;> simp

theorem isPrefix_of_append_sep (c : Char) (ind l f : List Char) (hc : c ∉ ind)
    (h : ind <+: l ++ c :: f) : ind <+: l := by
  rcases List.prefix_or_prefix_of_prefix h (List.prefix_append l (c :: f)) with h1 | h1
  · exact h1
  · obtain ⟨r, rfl⟩ := h1
    rw [List.prefix_append_right_inj, List.prefix_cons_iff] at h
    rcases h with rfl | ⟨t, rfl, _⟩
    · simp
    · exact absurd (by simp) hc

theorem isInfix_of_append_sep (c : Char) (ind a f : List Char) (hc : c ∉ ind)
    (h : ind <:+: a ++ c :: f) : ind <:+: a ∨ ind <:+: f := by
  induction a with
  | nil =>
    rw [List.nil_append, List.infix_cons_iff] at h
    rcases h with h | h
    · rw [List.prefix_cons_iff] at h
      rcases h with rfl | ⟨t, rfl, _⟩
      · exact Or.inl List.nil_infix
      · exact absurd (by simp) hc
    · exact Or.inr h
  | cons x a ih =>
    rw [List.cons_append, List.infix_cons_iff] at h
    rcases h with h | h
    · rw [← List.cons_append] at h
      exact Or.inl (isPrefix_of_append_sep c ind (x :: a) f hc h).isInfix
    · rcases ih h with h1 | h1
      · exact Or.inl (List.infix_cons h1)
      · exact Or.inr h1

/-- Across a separator character that a token does not have, the token occurs
in the whole string exactly when it occurs in one of the two sides. -/
theorem contains_append_sep (c : Char) (ind a f : List Char) (hc : c ∉ ind) :
    contains (a ++ c :: f) ind = (contains a ind || contains f ind) := by
  rw [Bool.eq_iff_iff, Bool.or_eq_true, contains_iff_isInfix, contains_iff_isInfix,
    contains_iff_isInfix]
  constructor
  · exact isInfix_of_append_sep c ind a f hc
  · rintro (h | h)
    · exact h.trans (List.infix_append' [] a (c :: f))
    · exact h.trans ((List.suffix_cons c f).isInfix.trans (List.suffix_append a (c :: f)).isInfix)

/-- With one display format appended, the branch of an indicator computes the
same descriptor and carries the trimmed format. -/
theorem parseIndicate_format (a f ind : List Char) (ha : ';' ∉ a) (hf : ';' ∉ f) :
    parseIndicate (a ++ ';' :: f) ind =
      (parseIndicate a ind).map (fun d => { d with Format := trimSpace f }) := by
  have h1 : contains (a ++ ';' :: f) formatIndicate = true := contains_mid ';' [] a f ha
  have h2 : contains a formatIndicate = false := contains_of_not_mem ';' [] a ha
  have h3 : split (a ++ ';' :: f) formatIndicate = [a, f] := split_single ';' [] a f ha hf
  unfold parseIndicate
  simp only [h1, h2, h3, if_true, Bool.false_eq_true, if_false, List.headD_cons,
    List.getLastD_cons, List.getLastD_nil]
  cases atoi (trimSpace ((split a ind).getLastD [])) with
  | none => rfl
  | some size =>
    simp only
    split <;> rfl

/-- With one display format appended that has none of the tokens tried before
the one of the attribute part, the loop computes the same result and carries
the trimmed format. -/
theorem elementTypeLoop_format (a f : List Char) (ha : ';' ∉ a) (hf : ';' ∉ f)
    (l : List (List Char)) (hl : ∀ ind ∈ l, ';' ∉ ind)
    (hpre : ∀ ind ∈ l.takeWhile (fun i => !contains a i), contains f ind = false) :
    elementTypeLoop (a ++ ';' :: f) l =
      (elementTypeLoop a l).map (fun d => { d with Format := trimSpace f }) := by
  induction l with
  | nil => rfl
  | cons ind l ih =>
    have hc := contains_append_sep ';' ind a f (hl ind (by simp))
    cases hca : contains a ind with
    | true =>
      simp only [elementTypeLoop, hc, hca, Bool.true_or, if_true]
      exact parseIndicate_format a f ind ha hf
    | false =>
      have hcf : contains f ind = false := hpre ind (by simp [List.takeWhile, hca])
      simp only [elementTypeLoop, hc, hca, hcf, Bool.or_self, Bool.false_eq_true, if_false]
      apply ih (fun i hi => hl i (by simp [hi]))
      intro i hi
      exact hpre i (by simp [List.takeWhile, hca, hi])

theorem foldl_append_keys (l : List (Int × Attribute)) (acc : List Int) :
    l.foldl (fun keys kv => keys ++ [kv.1]) acc = acc ++ l.map Prod.fst := by
  induction l generalizing acc with
  | nil => simp
  | cons x l ih => simp [ih]

/-! ## The claims -/

/-- C1: for k in 1..3, a tag without `.` and `;` and without leading or
trailing white space (so in particular every non-empty tag that has no `-` and
no blank either), and 0 <= n <= 10^k - 1, `Attribute.ElementType` on
tag ++ (k dots) ++ decimal(n) succeeds with Type = tag, Length = n,
Fixed = false and Format, Encoding, LengthEncoding empty. -/
theorem elementType_variable (k : Nat) (hk : k = 1 ∨ k = 2 ∨ k = 3)
    (tag description : List Char) (hdot : '.' ∉ tag) (hsemi : ';' ∉ tag)
    (hhead : ∀ c, tag.head? = some c → isSpace c = false)
    (hlast : ∀ c, tag.getLast? = some c → isSpace c = false)
    (n : Nat) (hn : n ≤ 10 ^ k - 1) :
    (Attribute.mk (tag ++ List.replicate k '.' ++ decimal n) description).ElementType =
      .ok { Type_ := tag, Length := (n : Int), Fixed := false, Format := []
            Encoding := [], LengthEncoding := [] } := by
  have hd : '.' ∉ decimal n := decimal_not_mem n '.' (by decide)
  have hk0 : 0 < k := by omega
  have hn999 : n ≤ 999 := by
    rcases hk with rfl | rfl | rfl <;> omega
  have hloop := elementTypeLoop_dots (tag ++ (List.replicate k '.' ++ decimal n)) k hk
    (fun j hj _ => contains_replicate_lt '.' tag (decimal n) k j hdot hd hj)
    (contains_replicate_self '.' tag (decimal n) k hdot hk0)
  obtain ⟨m, rfl⟩ : ∃ m, k = m + 1 := ⟨k - 1, by omega⟩
  have hs : ';' ∉ tag ++ ('.' :: List.replicate m '.' ++ decimal n) := by
    have h1 : ';' ∉ decimal n := decimal_not_mem n ';' (by decide)
    simp only [List.mem_append, List.mem_cons, List.mem_replicate]
    rintro (h | (h | h) | h)
    · exact hsemi h
    · exact absurd h (by decide)
    · exact absurd h.2 (by decide)
    · exact h1 h
  have hv : contains ('.' :: List.replicate m '.') variableIndicate = true := by
    simp [contains, index, variableIndicate]
  have hsize : ¬ ((n : Int) > (10 : Int) ^ ('.' :: List.replicate m '.').length) := by
    have hle : (n : Int) ≤ 10 ^ (m + 1) - 1 := by
      have h1 : (1 : Nat) ≤ 10 ^ (m + 1) := Nat.one_le_pow _ _ (by decide)
      have h2 : n + 1 ≤ 10 ^ (m + 1) := by omega
      have h3 : ((n + 1 : Nat) : Int) ≤ ((10 ^ (m + 1) : Nat) : Int) := by exact_mod_cast h2
      push_cast at h3
      omega
    simp only [List.length_cons, List.length_replicate]
    omega
  have hat : atoi (trimSpace (decimal n)) = some (n : Int) := by
    rw [trimSpace_decimal]
    exact atoi_decimal n (by omega)
  rw [List.replicate_succ] at hloop
  rw [Attribute.ElementType]
  simp only [List.append_assoc, List.replicate_succ]
  rw [hloop, parseIndicate_once '.' _ tag (decimal n) hdot hd hs, hat]
  simp only [hv, Bool.not_true, Bool.not_false, Bool.true_and, decide_eq_true_eq, hsize,
    if_false, trimSpace_eq_self tag hhead hlast]

/-- C2: for a tag (empty or not) without `.`, `-`, blank, `;` and without
leading or trailing white space, and every n >= 0 that fits an `int`, `Attribute.ElementType` on
tag ++ " " ++ decimal(n) and on tag ++ "-" ++ decimal(n) succeeds with
Type = tag, Length = n, Fixed = true and an empty Format, whatever the size
of n. -/
theorem elementType_fixed (tag description : List Char)
    (hdot : '.' ∉ tag) (hdash : '-' ∉ tag) (hblank : ' ' ∉ tag) (hsemi : ';' ∉ tag)
    (hhead : ∀ c, tag.head? = some c → isSpace c = false)
    (hlast : ∀ c, tag.getLast? = some c → isSpace c = false)
    (n : Nat) (hn : n < 2 ^ (intSize - 1)) :
    (Attribute.mk (tag ++ [' '] ++ decimal n) description).ElementType =
        .ok { Type_ := tag, Length := (n : Int), Fixed := true, Format := []
              Encoding := [], LengthEncoding := [] } ∧
      (Attribute.mk (tag ++ ['-'] ++ decimal n) description).ElementType =
        .ok { Type_ := tag, Length := (n : Int), Fixed := true, Format := []
              Encoding := [], LengthEncoding := [] } := by
  have hd1 : '.' ∉ decimal n := decimal_not_mem n '.' (by decide)
  have hd2 : '-' ∉ decimal n := decimal_not_mem n '-' (by decide)
  have hd3 : ' ' ∉ decimal n := decimal_not_mem n ' ' (by decide)
  have hd4 : ';' ∉ decimal n := decimal_not_mem n ';' (by decide)
  have hat : atoi (trimSpace (decimal n)) = some (n : Int) := by
    rw [trimSpace_decimal]
    exact atoi_decimal n hn
  have hmem : ∀ c x : Char, c ≠ x → c ∉ tag → c ∉ decimal n →
      c ∉ tag ++ (x :: [] ++ decimal n) := by
    intro c x hx h1 h2
    simp only [List.mem_append, List.mem_singleton]
    rintro (h | h | h)
    · exact h1 h
    · exact hx h
    · exact h2 h
  constructor
  · rw [Attribute.ElementType]
    simp only [List.append_assoc]
    rw [elementTypeLoop_no_dot _ (hmem '.' ' ' (by decide) hdot hd1),
      contains_of_not_mem '-' [] _ (hmem '-' ' ' (by decide) hdash hd2),
      contains_mid ' ' [] tag (decimal n) hblank]
    simp only [Bool.false_eq_true, if_false, if_true]
    rw [parseIndicate_once ' ' [] tag (decimal n) hblank hd3
      (hmem ';' ' ' (by decide) hsemi hd4), hat]
    have hv : contains [' '] variableIndicate = false := by decide
    simp [hv, trimSpace_eq_self tag hhead hlast]
  · rw [Attribute.ElementType]
    simp only [List.append_assoc]
    rw [elementTypeLoop_no_dot _ (hmem '.' '-' (by decide) hdot hd1),
      contains_mid '-' [] tag (decimal n) hdash]
    simp only [if_true]
    rw [parseIndicate_once '-' [] tag (decimal n) hdash hd2
      (hmem ';' '-' (by decide) hsemi hd4), hat]
    have hv : contains ['-'] variableIndicate = false := by decide
    simp [hv, trimSpace_eq_self tag hhead hlast]

/-- Witness of C1: `an..99` gives an/99/variable. -/
theorem elementType_variable_witness :
    (Attribute.mk "an..99".toList "Amount".toList).ElementType =
      .ok { Type_ := "an".toList, Length := 99, Fixed := false, Format := []
            Encoding := [], LengthEncoding := [] } :=
  elementType_variable 2 (by decide) "an".toList "Amount".toList (by decide) (by decide)
    (by simp [isSpace]) (by simp [isSpace]) 99 (by decide)

/-- Witness of C2: `b 64` and `b-64` both give b/64/fixed. -/
theorem elementType_fixed_witness :
    (Attribute.mk "b 64".toList "Second Bitmap".toList).ElementType =
        .ok { Type_ := "b".toList, Length := 64, Fixed := true, Format := []
              Encoding := [], LengthEncoding := [] } ∧
      (Attribute.mk "b-64".toList "Second Bitmap".toList).ElementType =
        .ok { Type_ := "b".toList, Length := 64, Fixed := true, Format := []
              Encoding := [], LengthEncoding := [] } :=
  elementType_fixed "b".toList "Second Bitmap".toList (by decide) (by decide) (by decide)
    (by decide) (by simp [isSpace]) (by simp [isSpace]) 64 (by decide)

/-- C3: the capacity check of a variable indicator lets the length 10^k
through: `an..100`, `an.10` and `ans...1000` are accepted although they need
one digit more than the indicator has. -/
theorem elementType_accepts_capacity_overflow :
    (Attribute.mk "an..100".toList []).ElementType =
        .ok { Type_ := "an".toList, Length := 100, Fixed := false, Format := []
              Encoding := [], LengthEncoding := [] } ∧
      (Attribute.mk "an.10".toList []).ElementType =
        .ok { Type_ := "an".toList, Length := 10, Fixed := false, Format := []
              Encoding := [], LengthEncoding := [] } ∧
      (Attribute.mk "ans...1000".toList []).ElementType =
        .ok { Type_ := "ans".toList, Length := 1000, Fixed := false, Format := []
              Encoding := [], LengthEncoding := [] } := by
  decide

/-- C4: `Attribute.ElementType` fails with "invalid element type" exactly
when the Describe string has none of the characters `.`, `-` and blank; every
other failure carries "invalid element length"; and `n6` is rejected with
"invalid element type". -/
theorem elementType_invalid_type_iff :
    (∀ s : Attribute,
      (s.ElementType = .error "invalid element type" ↔
        '.' ∉ s.Describe ∧ '-' ∉ s.Describe ∧ ' ' ∉ s.Describe) ∧
      (∀ e, s.ElementType = .error e → e ≠ "invalid element type" →
        e = "invalid element length")) ∧
    (∀ description, (Attribute.mk "n6".toList description).ElementType =
      .error "invalid element type") := by
  constructor
  · intro s
    have hne : "invalid element length" ≠ "invalid element type" := by decide
    constructor
    · constructor
      · intro h
        rw [Attribute.ElementType, elementTypeLoop_eq_indicateOf] at h
        by_cases hdot : '.' ∈ s.Describe
        · exfalso
          have hi := indicateOf_dot s.Describe hdot
          rcases hi with hi | hi | hi <;>
          · rw [hi] at h
            exact hne (parseIndicate_error _ _ _ h).symm
        · have hi := indicateOf_no_dot s.Describe hdot
          rw [hi] at h
          refine ⟨hdot, ?_, ?_⟩
          · intro hm
            rw [(contains_singleton '-' _).mpr hm] at h
            exact hne (parseIndicate_error _ _ _ h).symm
          · intro hm
            rw [(contains_singleton ' ' _).mpr hm] at h
            cases hc : contains s.Describe ['-'] <;> rw [hc] at h <;>
              exact hne (parseIndicate_error _ _ _ h).symm
      · rintro ⟨h1, h2, h3⟩
        rw [Attribute.ElementType, elementTypeLoop_no_dot _ h1,
          contains_of_not_mem '-' [] _ h2, contains_of_not_mem ' ' [] _ h3]
        rfl
    · intro e h hnt
      rw [Attribute.ElementType, elementTypeLoop_eq_find] at h
      split at h
      · exact parseIndicate_error _ _ _ h
      · exact absurd (Except.error.inj h).symm hnt
  · intro description
    show elementTypeLoop "n6".toList digitIndicates = _
    decide

/-- C5, as stated, fails: of the documented examples, `n6` has no indicator
token and `an.99` exceeds the one digit of the indicator `.`. -/
theorem documented_examples_rejected :
    (Attribute.mk "n6".toList []).ElementType = .error "invalid element type" ∧
      (Attribute.mk "an.99".toList []).ElementType = .error "invalid element length" := by
  decide

/-- C5, amended: of the documented examples, `b..64`, `an..99` and `b 64` are
parsed to b/64/variable, an/99/variable and b/64/fixed, while `n6` fails with
"invalid element type" and `an.99` with "invalid element length". -/
theorem documented_examples (description : List Char) :
    (Attribute.mk "b..64".toList description).ElementType =
        .ok { Type_ := "b".toList, Length := 64, Fixed := false, Format := []
              Encoding := [], LengthEncoding := [] } ∧
      (Attribute.mk "an..99".toList description).ElementType =
        .ok { Type_ := "an".toList, Length := 99, Fixed := false, Format := []
              Encoding := [], LengthEncoding := [] } ∧
      (Attribute.mk "b 64".toList description).ElementType =
        .ok { Type_ := "b".toList, Length := 64, Fixed := true, Format := []
              Encoding := [], LengthEncoding := [] } ∧
      (Attribute.mk "n6".toList description).ElementType =
        .error "invalid element type" ∧
      (Attribute.mk "an.99".toList description).ElementType =
        .error "invalid element length" := by
  refine ⟨?_, ?_, ?_, ?_, ?_⟩
  · show elementTypeLoop "b..64".toList digitIndicates = _
    decide
  · show elementTypeLoop "an..99".toList digitIndicates = _
    decide
  · show elementTypeLoop "b 64".toList digitIndicates = _
    decide
  · show elementTypeLoop "n6".toList digitIndicates = _
    decide
  · show elementTypeLoop "an.99".toList digitIndicates = _
    decide

/-- C7: on success the loop stopped at an indicator `ind` of the Describe
string, and the returned Fixed is true exactly when `ind` is `-` or the
blank, which is exactly when the whole Describe string has no `.`; with a `.`
in it a successful result has Fixed = false. -/
theorem fixed_iff_no_dot (s : Attribute) (d : ElementType) (h : s.ElementType = .ok d) :
    ∃ ind, indicateOf s.Describe = some ind ∧ parseIndicate s.Describe ind = .ok d ∧
      (d.Fixed = true ↔ ind = ['-'] ∨ ind = [' ']) ∧
      (ind = ['-'] ∨ ind = [' '] ↔ '.' ∉ s.Describe) ∧
      (d.Fixed = true ↔ '.' ∉ s.Describe) ∧
      ('.' ∈ s.Describe → d.Fixed = false) := by
  rw [Attribute.ElementType, elementTypeLoop_eq_indicateOf] at h
  have key : ∃ ind, indicateOf s.Describe = some ind ∧ parseIndicate s.Describe ind = .ok d ∧
      (d.Fixed = true ↔ ind = ['-'] ∨ ind = [' ']) ∧
      (ind = ['-'] ∨ ind = [' '] ↔ '.' ∉ s.Describe) := by
    by_cases hdot : '.' ∈ s.Describe
    · have hi := indicateOf_dot s.Describe hdot
      rcases hi with hi | hi | hi <;>
      · rw [hi] at h
        refine ⟨_, hi, h, ?_, ?_⟩
        · rw [parseIndicate_fixed _ _ _ h]
          decide
        · simp [hdot]
    · have hi := indicateOf_no_dot s.Describe hdot
      rw [hi] at h
      cases h4 : contains s.Describe ['-'] with
      | true =>
        rw [h4] at hi h
        refine ⟨_, hi, h, ?_, ?_⟩
        · rw [parseIndicate_fixed _ _ _ h]
          decide
        · simp [hdot]
      | false =>
        cases h5 : contains s.Describe [' '] with
        | true =>
          rw [h4, h5] at hi h
          refine ⟨_, hi, h, ?_, ?_⟩
          · rw [parseIndicate_fixed _ _ _ h]
            decide
          · simp [hdot]
        | false =>
          rw [h4, h5] at h
          cases h
  obtain ⟨ind, h1, h2, h3, h4⟩ := key
  refine ⟨ind, h1, h2, h3, h4, h3.trans h4, ?_⟩
  intro hdot
  cases hf : d.Fixed with
  | false => rfl
  | true => exact absurd hdot ((h3.trans h4).mp hf)

/-- Witness of C7: `b 64` is split on the blank and is fixed. -/
theorem fixed_iff_no_dot_witness :
    ∃ ind, indicateOf "b 64".toList = some ind ∧
      parseIndicate "b 64".toList ind =
        .ok { Type_ := "b".toList, Length := 64, Fixed := true, Format := []
              Encoding := [], LengthEncoding := [] } ∧
      ((true : Bool) = true ↔ ind = ['-'] ∨ ind = [' ']) ∧
      (ind = ['-'] ∨ ind = [' '] ↔ '.' ∉ "b 64".toList) ∧
      ((true : Bool) = true ↔ '.' ∉ "b 64".toList) ∧
      ('.' ∈ "b 64".toList → (true : Bool) = false) :=
  fixed_iff_no_dot (Attribute.mk "b 64".toList [])
    { Type_ := "b".toList, Length := 64, Fixed := true, Format := []
      Encoding := [], LengthEncoding := [] } (by decide)

/-- C6, as stated, fails: the display format is trimmed (`b 64; MMDD` carries
`MMDD`, not ` MMDD`), and a format with an indicator token that is tried
before the one of the attribute part changes the parse (`b 64;hh.mm` is
rejected although `b 64` is accepted). -/
theorem format_not_carried_unchanged :
    (Attribute.mk "b 64".toList []).ElementType =
        .ok { Type_ := "b".toList, Length := 64, Fixed := true, Format := []
              Encoding := [], LengthEncoding := [] } ∧
      (Attribute.mk ("b 64".toList ++ ";".toList ++ " MMDD".toList) []).ElementType =
        .ok { Type_ := "b".toList, Length := 64, Fixed := true, Format := "MMDD".toList
              Encoding := [], LengthEncoding := [] } ∧
      "MMDD".toList ≠ " MMDD".toList ∧
      (Attribute.mk ("b 64".toList ++ ";".toList ++ "hh.mm".toList) []).ElementType =
        .error "invalid element length" := by
  decide

/-- C6, amended: for a Describe string `a` without `;` on which
`Attribute.ElementType` succeeds with descriptor `d`, and a display format `f`
without `;` that contains none of the indicator tokens tried before the one
`a` is split on, `ElementType` on a ++ ";" ++ f succeeds with the Type, Length
and Fixed of `d` and with Format equal to `f` without its leading and trailing
white space. -/
theorem format_carried_trimmed (a f description description1 : List Char) (d : ElementType)
    (ha : ';' ∉ a) (hf : ';' ∉ f)
    (hind : ∀ ind ∈ digitIndicates.takeWhile (fun i => !contains a i), contains f ind = false)
    (h : (Attribute.mk a description).ElementType = .ok d) :
    (Attribute.mk (a ++ [';'] ++ f) description1).ElementType =
      .ok { d with Format := trimSpace f } := by
  have hl : ∀ ind ∈ digitIndicates, ';' ∉ ind := by decide
  rw [Attribute.ElementType] at h ⊢
  simp only [List.append_assoc, List.singleton_append]
  rw [elementTypeLoop_format a f ha hf digitIndicates hl hind, h]
  rfl

/-- Witness of C6 (amended): `an..99` with the format ` hh mm ` (blanks are
tried after the two dots) gives an/99/variable with the format `hh mm`. -/
theorem format_carried_trimmed_witness :
    (Attribute.mk ("an..99".toList ++ [';'] ++ " hh mm ".toList) []).ElementType =
      .ok { Type_ := "an".toList, Length := 99, Fixed := false, Format := "hh mm".toList
            Encoding := [], LengthEncoding := [] } :=
  format_carried_trimmed "an..99".toList " hh mm ".toList [] []
    { Type_ := "an".toList, Length := 99, Fixed := false, Format := []
      Encoding := [], LengthEncoding := [] }
    (by decide) (by decide) (by decide) (by decide)

/-- C8: after `t.SetEncoding(e)`, LengthEncoding is e.LengthEnc, and Encoding
is e.NumberEnc, e.MtiEnc, e.BitmapEnc, e.BinaryEnc or e.TrackEnc when t.Type is
the numeric, MTI, bitmap, binary or magnetic tag, and e.CharacterEnc for every
other Type, the five tags being pairwise distinct constants. -/
theorem setEncoding_resolves (tags : ElementTypeTags)
    (hdistinct : [tags.ElementTypeNumeric, tags.ElementTypeMti, tags.ElementTypeBitmap,
      tags.ElementTypeBinary, tags.ElementTypeMagnetic].Nodup)
    (t : ElementType) (e : EncodingDefinition) :
    (t.SetEncoding tags e).1.LengthEncoding = e.LengthEnc ∧
      (t.Type_ = tags.ElementTypeNumeric → (t.SetEncoding tags e).1.Encoding = e.NumberEnc) ∧
      (t.Type_ = tags.ElementTypeMti → (t.SetEncoding tags e).1.Encoding = e.MtiEnc) ∧
      (t.Type_ = tags.ElementTypeBitmap → (t.SetEncoding tags e).1.Encoding = e.BitmapEnc) ∧
      (t.Type_ = tags.ElementTypeBinary → (t.SetEncoding tags e).1.Encoding = e.BinaryEnc) ∧
      (t.Type_ = tags.ElementTypeMagnetic → (t.SetEncoding tags e).1.Encoding = e.TrackEnc) ∧
      (t.Type_ ≠ tags.ElementTypeNumeric → t.Type_ ≠ tags.ElementTypeMti →
        t.Type_ ≠ tags.ElementTypeBitmap → t.Type_ ≠ tags.ElementTypeBinary →
        t.Type_ ≠ tags.ElementTypeMagnetic →
        (t.SetEncoding tags e).1.Encoding = e.CharacterEnc) := by
  simp only [List.nodup_cons, List.mem_cons, List.mem_singleton, not_or, List.not_mem_nil,
    not_false_eq_true, List.nodup_nil, and_true] at hdistinct
  obtain ⟨⟨h12, h13, h14, h15⟩, ⟨h23, h24, h25⟩, ⟨h34, h35⟩, h45⟩ := hdistinct
  unfold ElementType.SetEncoding
  refine ⟨?_, ?_, ?_, ?_, ?_, ?_, ?_⟩
  · simp only
    split_ifs <;> rfl
  · intro h
    simp [h]
  · intro h
    simp [h, Ne.symm h12]
  · intro h
    simp [h, Ne.symm h13, Ne.symm h23]
  · intro h
    simp [h, Ne.symm h14, Ne.symm h24, Ne.symm h34]
  · intro h
    simp [h, Ne.symm h15, Ne.symm h25, Ne.symm h35, Ne.symm h45]
  · intro h1 h2 h3 h4 h5
    simp [h1, h2, h3, h4, h5]

/-- Witness of C8: with the tags n, mti, bmp, b and z, a binary descriptor
takes the binary encoding and the length encoding of the definition. -/
theorem setEncoding_resolves_witness :
    (ElementType.SetEncoding
        ⟨"n".toList, "mti".toList, "bmp".toList, "b".toList, "z".toList⟩
        ⟨"b".toList, 64, [], [], true, []⟩
        ⟨"mtiE".toList, "bmpE".toList, "lenE".toList, "numE".toList, "chrE".toList,
          "binE".toList, "trkE".toList⟩).1.LengthEncoding = "lenE".toList ∧
      (ElementType.SetEncoding
        ⟨"n".toList, "mti".toList, "bmp".toList, "b".toList, "z".toList⟩
        ⟨"b".toList, 64, [], [], true, []⟩
        ⟨"mtiE".toList, "bmpE".toList, "lenE".toList, "numE".toList, "chrE".toList,
          "binE".toList, "trkE".toList⟩).1.Encoding = "binE".toList :=
  have h := setEncoding_resolves
    ⟨"n".toList, "mti".toList, "bmp".toList, "b".toList, "z".toList⟩ (by decide)
    ⟨"b".toList, 64, [], [], true, []⟩
    ⟨"mtiE".toList, "bmpE".toList, "lenE".toList, "numE".toList, "chrE".toList,
      "binE".toList, "trkE".toList⟩
  ⟨h.1, h.2.2.2.2.1 rfl⟩

/-- C9: applying `t.SetEncoding(e)` twice leaves `t` (and `e`) in the same
state as applying it once. -/
theorem setEncoding_idempotent (tags : ElementTypeTags) (t : ElementType)
    (e : EncodingDefinition) :
    ElementType.SetEncoding tags (t.SetEncoding tags e).1 (t.SetEncoding tags e).2 =
      t.SetEncoding tags e := by
  by_cases h1 : t.Type_ = tags.ElementTypeNumeric
  · simp only [ElementType.SetEncoding, if_pos h1]
  by_cases h2 : t.Type_ = tags.ElementTypeMti
  · simp only [ElementType.SetEncoding, if_neg h1, if_pos h2]
  by_cases h3 : t.Type_ = tags.ElementTypeBitmap
  · simp only [ElementType.SetEncoding, if_neg h1, if_neg h2, if_pos h3]
  by_cases h4 : t.Type_ = tags.ElementTypeBinary
  · simp only [ElementType.SetEncoding, if_neg h1, if_neg h2, if_neg h3, if_pos h4]
  by_cases h5 : t.Type_ = tags.ElementTypeMagnetic
  · simp only [ElementType.SetEncoding, if_neg h1, if_neg h2, if_neg h3, if_neg h4, if_pos h5]
  · simp only [ElementType.SetEncoding, if_neg h1, if_neg h2, if_neg h3, if_neg h4, if_neg h5]

/-- C10: `m.Keys()` is strictly ascending, holds exactly the keys of `m`, each
of them once, and is empty for the empty map. -/
theorem keys_ascending (m : Attributes) :
    List.Sorted (· < ·) m.Keys ∧
      (∀ k : Int, k ∈ m.Keys ↔ ∃ a, (k, a) ∈ m.entries) ∧
      (∀ k : Int, (∃ a, (k, a) ∈ m.entries) → m.Keys.count k = 1) ∧
      (∀ k : Int, (¬ ∃ a, (k, a) ∈ m.entries) → m.Keys.count k = 0) ∧
      (m.entries = [] → m.Keys = []) := by
  have hk : m.Keys = (m.entries.map Prod.fst).insertionSort (· ≤ ·) := by
    simp [Attributes.Keys, sortInts, foldl_append_keys]
  have hperm : m.Keys.Perm (m.entries.map Prod.fst) := by
    rw [hk]
    exact List.perm_insertionSort _ _
  have hnodup : m.Keys.Nodup := hperm.nodup_iff.mpr m.nodupKeys
  have hmem : ∀ k : Int, k ∈ m.Keys ↔ ∃ a, (k, a) ∈ m.entries := by
    intro k
    rw [hperm.mem_iff]
    simp
  refine ⟨?_, hmem, ?_, ?_, ?_⟩
  · have hs : List.Sorted (· ≤ ·) m.Keys := by
      rw [hk]
      exact List.sorted_insertionSort _ _
    exact hs.lt_of_le hnodup
  · intro k hkm
    exact List.count_eq_one_of_mem hnodup ((hmem k).mpr hkm)
  · intro k hkm
    exact List.count_eq_zero_of_not_mem (fun h => hkm ((hmem k).mp h))
  · intro he
    simp [hk, he]

/-! ## Lemmas for the lookup, the plain format and the frame of the resolver -/

theorem lookup_of_mem (l : List (Int × Attribute)) (hn : (l.map Prod.fst).Nodup)
    (n : Int) (a : Attribute) (h : (n, a) ∈ l) : l.lookup n = some a := by
  induction l with
  | nil => simp at h
  | cons kv l ih =>
    obtain ⟨k, v⟩ := kv
    simp only [List.map_cons, List.nodup_cons] at hn
    rcases List.mem_cons.mp h with e | e
    · cases e
      simp
    · have hk : n ≠ k := by
        rintro rfl
        exact hn.1 (List.mem_map.mpr ⟨(n, a), e, rfl⟩)
      have hb : (n == k) = false := by simpa using hk
      rw [List.lookup_cons, hb]
      exact ih hn.2 e

theorem mem_of_lookup (l : List (Int × Attribute)) (n : Int) (a : Attribute)
    (h : l.lookup n = some a) : (n, a) ∈ l := by
  induction l with
  | nil => simp at h
  | cons kv l ih =>
    obtain ⟨k, v⟩ := kv
    rw [List.lookup_cons] at h
    by_cases hk : n = k
    · subst hk
      simp only [beq_self_eq_true] at h
      cases h
      simp
    · have hb : (n == k) = false := by simpa using hk
      rw [hb] at h
      exact List.mem_cons_of_mem _ (ih h)

/-- Without a `;` in the string, the branch of an indicator leaves the format
empty. -/
theorem parseIndicate_no_format (a ind : List Char) (d : ElementType) (ha : ';' ∉ a)
    (h : parseIndicate a ind = .ok d) : d.Format = [] := by
  have h2 : contains a formatIndicate = false := contains_of_not_mem ';' [] a ha
  unfold parseIndicate at h
  simp only [h2, Bool.false_eq_true, if_false] at h
  split at h
  · cases h
  · split at h
    · cases h
    · rw [← Except.ok.inj h]

theorem elementTypeLoop_no_format (a : List Char) (d : ElementType) (ha : ';' ∉ a)
    (h : elementTypeLoop a digitIndicates = .ok d) : d.Format = [] := by
  rw [elementTypeLoop_eq_indicateOf] at h
  split at h
  · exact parseIndicate_no_format a _ d ha h
  · cases h

/-- The two post-states of `SetEncoding`, written out. -/
theorem setEncoding_eq (tags : ElementTypeTags) (t : ElementType) (e : EncodingDefinition) :
    t.SetEncoding tags e =
      ({ t with
          LengthEncoding := e.LengthEnc
          Encoding :=
            if t.Type_ = tags.ElementTypeNumeric then e.NumberEnc
            else if t.Type_ = tags.ElementTypeMti then e.MtiEnc
            else if t.Type_ = tags.ElementTypeBitmap then e.BitmapEnc
            else if t.Type_ = tags.ElementTypeBinary then e.BinaryEnc
            else if t.Type_ = tags.ElementTypeMagnetic then e.TrackEnc
            else e.CharacterEnc }, e) := by
  by_cases h1 : t.Type_ = tags.ElementTypeNumeric
  · simp only [ElementType.SetEncoding, if_pos h1]
  by_cases h2 : t.Type_ = tags.ElementTypeMti
  · simp only [ElementType.SetEncoding, if_neg h1, if_pos h2]
  by_cases h3 : t.Type_ = tags.ElementTypeBitmap
  · simp only [ElementType.SetEncoding, if_neg h1, if_neg h2, if_pos h3]
  by_cases h4 : t.Type_ = tags.ElementTypeBinary
  · simp only [ElementType.SetEncoding, if_neg h1, if_neg h2, if_neg h3, if_pos h4]
  by_cases h5 : t.Type_ = tags.ElementTypeMagnetic
  · simp only [ElementType.SetEncoding, if_neg h1, if_neg h2, if_neg h3, if_neg h4, if_pos h5]
  · simp only [ElementType.SetEncoding, if_neg h1, if_neg h2, if_neg h3, if_neg h4, if_neg h5]

/-! ## The claims on the lookup, the format suffix, the sign and the frame -/

/-- C11: `m.Get(n)` succeeds exactly when `n` is a key of `m`, it then returns
the Attribute stored under `n`, and for a number that is no key it returns the
error "don't exist specification". -/
theorem get_iff_key (m : Attributes) (n : Int) :
    (∀ a, m.Get n = .ok a ↔ (n, a) ∈ m.entries) ∧
      ((∃ a, m.Get n = .ok a) ↔ ∃ a, (n, a) ∈ m.entries) ∧
      ((¬ ∃ a, (n, a) ∈ m.entries) → m.Get n = .error "don't exist specification") := by
  have h1 : ∀ a, m.Get n = .ok a ↔ (n, a) ∈ m.entries := by
    intro a
    unfold Attributes.Get
    constructor
    · intro h
      split at h
      · cases h
      · rename_i spec hs
        cases h
        exact mem_of_lookup _ _ _ hs
    · intro h
      rw [lookup_of_mem _ m.nodupKeys n a h]
  refine ⟨h1, ?_, ?_⟩
  · constructor
    · rintro ⟨a, h⟩
      exact ⟨a, (h1 a).mp h⟩
    · rintro ⟨a, h⟩
      exact ⟨a, (h1 a).mpr h⟩
  · intro hno
    unfold Attributes.Get
    split
    · rfl
    · rename_i spec hs
      exact absurd ⟨spec, mem_of_lookup _ _ _ hs⟩ hno

/-- C16: for a Describe string `a` without `;` on which `ElementType` succeeds
with descriptor `d`, and a format `f` without `;`, `.`, `-`, blank and without
leading or trailing white space, `ElementType` on a ++ ";" ++ f succeeds with
the Type, Length and Fixed of `d` and Format = f; on `a` alone the Format is
empty. -/
theorem format_plain (a f description description1 : List Char) (d : ElementType)
    (ha : ';' ∉ a) (hsemi : ';' ∉ f) (hdot : '.' ∉ f) (hdash : '-' ∉ f) (hblank : ' ' ∉ f)
    (hhead : ∀ c, f.head? = some c → isSpace c = false)
    (hlast : ∀ c, f.getLast? = some c → isSpace c = false)
    (h : (Attribute.mk a description).ElementType = .ok d) :
    (Attribute.mk (a ++ [';'] ++ f) description1).ElementType = .ok { d with Format := f } ∧
      d.Format = [] := by
  rw [Attribute.ElementType] at h
  refine ⟨?_, elementTypeLoop_no_format a d ha h⟩
  have hl : ∀ ind ∈ digitIndicates, ';' ∉ ind := by decide
  have hpre : ∀ ind ∈ digitIndicates.takeWhile (fun i => !contains a i),
      contains f ind = false := by
    intro ind hi
    have hm := List.takeWhile_subset _ hi
    simp only [digitIndicates, List.mem_cons, List.mem_singleton, List.not_mem_nil,
      or_false] at hm
    rcases hm with rfl | rfl | rfl | rfl | rfl
    · exact contains_of_not_mem '.' _ f hdot
    · exact contains_of_not_mem '.' _ f hdot
    · exact contains_of_not_mem '.' _ f hdot
    · exact contains_of_not_mem '-' _ f hdash
    · exact contains_of_not_mem ' ' _ f hblank
  rw [Attribute.ElementType]
  simp only [List.append_assoc, List.singleton_append]
  rw [elementTypeLoop_format a f ha hsemi digitIndicates hl hpre, h,
    trimSpace_eq_self f hhead hlast]
  rfl

/-- Witness of C16: `n 4` with the format `MMDD`. -/
theorem format_plain_witness :
    (Attribute.mk ("n 4".toList ++ [';'] ++ "MMDD".toList) []).ElementType =
        .ok { Type_ := "n".toList, Length := 4, Fixed := true, Format := "MMDD".toList
              Encoding := [], LengthEncoding := [] } ∧
      ([] : List Char) = [] :=
  format_plain "n 4".toList "MMDD".toList [] []
    { Type_ := "n".toList, Length := 4, Fixed := true, Format := []
      Encoding := [], LengthEncoding := [] }
    (by decide) (by decide) (by decide) (by decide) (by decide)
    (by simp [isSpace]) (by simp [isSpace]) (by decide)

/-- C17: a signed numeral after a variable indicator is read with its sign:
`an..-5` is accepted with the nominal length -5, which is negative. -/
theorem elementType_negative_length :
    (Attribute.mk "an..-5".toList []).ElementType =
        .ok { Type_ := "an".toList, Length := -5, Fixed := false, Format := []
              Encoding := [], LengthEncoding := [] } ∧
      ¬ ((0 : Int) ≤ -5) := by
  decide

/-- C18: `t.SetEncoding(e)` leaves Type, Length, Format and Fixed of `t` and
all of `e` unchanged, and the resulting Encoding and LengthEncoding are the
same for any two descriptors of equal Type, whatever encodings they held
before. -/
theorem setEncoding_frame (tags : ElementTypeTags) (t : ElementType) (e : EncodingDefinition) :
    (t.SetEncoding tags e).1.Type_ = t.Type_ ∧
      (t.SetEncoding tags e).1.Length = t.Length ∧
      (t.SetEncoding tags e).1.Format = t.Format ∧
      (t.SetEncoding tags e).1.Fixed = t.Fixed ∧
      (t.SetEncoding tags e).2 = e ∧
      (∀ t1 : ElementType, t1.Type_ = t.Type_ →
        (t1.SetEncoding tags e).1.Encoding = (t.SetEncoding tags e).1.Encoding ∧
        (t1.SetEncoding tags e).1.LengthEncoding = (t.SetEncoding tags e).1.LengthEncoding) := by
  refine ⟨?_, ?_, ?_, ?_, ?_, ?_⟩
  · rw [setEncoding_eq]
  · rw [setEncoding_eq]
  · rw [setEncoding_eq]
  · rw [setEncoding_eq]
  · rw [setEncoding_eq]
  · intro t1 h1
    rw [setEncoding_eq, setEncoding_eq]
    simp only [h1, and_self]

/-! ## Lemmas on blanks around the indicator -/

theorem isSpace_replicate (n : Nat) : ∀ c ∈ List.replicate n ' ', isSpace c = true := by
  intro c hc
  rw [(List.mem_replicate.mp hc).2]
  decide

theorem trimSpace_replicate_left (n : Nat) (x : List Char) :
    trimSpace (List.replicate n ' ' ++ x) = trimSpace x := by
  unfold trimSpace
  rw [List.dropWhile_append_of_pos (isSpace_replicate n)]

theorem trimSpace_replicate_right (n : Nat) (x : List Char) :
    trimSpace (x ++ List.replicate n ' ') = trimSpace x := by
  unfold trimSpace
  rw [List.dropWhile_append]
  split
  · rename_i he
    rw [List.isEmpty_iff] at he
    rw [he, ← List.append_nil (List.replicate n ' '),
      List.dropWhile_append_of_pos (isSpace_replicate n)]
    rfl
  · rw [List.reverse_append, List.reverse_replicate,
      List.dropWhile_append_of_pos (isSpace_replicate n)]

theorem countLoop_blank_run (m fuel : Nat) (pre rest : List Char) (hpre : ' ' ∉ pre)
    (hrest : ' ' ∉ rest) (hf : m + 1 ≤ fuel) :
    countLoop [' '] fuel (pre ++ (List.replicate (m + 1) ' ' ++ rest)) = m + 1 := by
  induction m generalizing fuel pre with
  | zero =>
    obtain ⟨f, rfl⟩ : ∃ f, fuel = f + 1 := ⟨fuel - 1, by omega⟩
    have hi := index_mid ' ' [] pre rest hpre
    have hd : List.drop (pre.length + 1) (pre ++ (' ' :: [] ++ rest)) = rest := by
      rw [← List.append_assoc]
      have : pre.length + 1 = (pre ++ ' ' :: []).length := by simp
      rw [this, List.drop_left]
    simp only [List.replicate, countLoop, hi, List.length_singleton, hd]
    rw [countLoop_of_index_none _ _ _ (index_of_not_mem ' ' [] rest hrest)]
  | succ m ih =>
    obtain ⟨f, rfl⟩ : ∃ f, fuel = f + 1 := ⟨fuel - 1, by omega⟩
    have hi := index_mid ' ' [] pre (List.replicate (m + 1) ' ' ++ rest) hpre
    have hd : List.drop (pre.length + 1)
        (pre ++ (' ' :: [] ++ (List.replicate (m + 1) ' ' ++ rest))) =
        [] ++ (List.replicate (m + 1) ' ' ++ rest) := by
      rw [← List.append_assoc]
      have : pre.length + 1 = (pre ++ ' ' :: []).length := by simp
      rw [this, List.drop_left]
      rfl
    have hs : pre ++ (List.replicate (m + 1 + 1) ' ' ++ rest) =
        pre ++ (' ' :: [] ++ (List.replicate (m + 1) ' ' ++ rest)) := by
      simp [List.replicate_succ]
    rw [hs]
    simp only [countLoop, hi, List.length_singleton, hd]
    rw [ih f [] (by simp) (by omega)]

theorem genSplitLoop_blank_run (m n : Nat) (pre rest : List Char) (hpre : ' ' ∉ pre)
    (hrest : ' ' ∉ rest) (hn : m + 1 ≤ n) :
    genSplitLoop [' '] n (pre ++ (List.replicate (m + 1) ' ' ++ rest)) =
      pre :: (List.replicate m [] ++ [rest]) := by
  induction m generalizing n pre with
  | zero =>
    obtain ⟨f, rfl⟩ : ∃ f, n = f + 1 := ⟨n - 1, by omega⟩
    have hi := index_mid ' ' [] pre rest hpre
    have hd : List.drop (pre.length + 1) (pre ++ (' ' :: [] ++ rest)) = rest := by
      rw [← List.append_assoc]
      have : pre.length + 1 = (pre ++ ' ' :: []).length := by simp
      rw [this, List.drop_left]
    have hr : genSplitLoop [' '] f rest = [rest] := by
      cases f <;> simp [genSplitLoop, index_of_not_mem ' ' [] rest hrest]
    simp only [List.replicate, genSplitLoop, hi, List.length_singleton, hd, hr,
      List.take_left, List.nil_append]
  | succ m ih =>
    obtain ⟨f, rfl⟩ : ∃ f, n = f + 1 := ⟨n - 1, by omega⟩
    have hi := index_mid ' ' [] pre (List.replicate (m + 1) ' ' ++ rest) hpre
    have hd : List.drop (pre.length + 1)
        (pre ++ (' ' :: [] ++ (List.replicate (m + 1) ' ' ++ rest))) =
        [] ++ (List.replicate (m + 1) ' ' ++ rest) := by
      rw [← List.append_assoc]
      have : pre.length + 1 = (pre ++ ' ' :: []).length := by simp
      rw [this, List.drop_left]
      rfl
    have hs : pre ++ (List.replicate (m + 1 + 1) ' ' ++ rest) =
        pre ++ (' ' :: [] ++ (List.replicate (m + 1) ' ' ++ rest)) := by
      simp [List.replicate_succ]
    rw [hs]
    simp only [genSplitLoop, hi, List.length_singleton, hd, List.take_left]
    rw [ih f [] (by simp) (by omega)]
    simp [List.replicate_succ]

/-- Splitting on the blank a string with one run of blanks: the part before
the run, an empty piece between any two blanks, and the part after it. -/
theorem split_blank_run (m : Nat) (pre rest : List Char) (hpre : ' ' ∉ pre)
    (hrest : ' ' ∉ rest) :
    split (pre ++ (List.replicate (m + 1) ' ' ++ rest)) [' '] =
      pre :: (List.replicate m [] ++ [rest]) := by
  have hlen : m + 1 ≤ (pre ++ (List.replicate (m + 1) ' ' ++ rest)).length := by
    simp only [List.length_append, List.length_replicate]
    omega
  have hc : count (pre ++ (List.replicate (m + 1) ' ' ++ rest)) [' '] = m + 1 := by
    simp only [count, List.isEmpty_cons, Bool.false_eq_true, if_false]
    exact countLoop_blank_run m _ pre rest hpre hrest hlen
  simp only [split, List.isEmpty_cons, Bool.false_eq_true, if_false, hc]
  rw [Nat.min_eq_left hlen]
  exact genSplitLoop_blank_run m (m + 1) pre rest hpre hrest (Nat.le_refl _)

theorem getLastD_append_singleton (l : List (List Char)) (x d : List Char) :
    (l ++ [x]).getLastD d = x := by
  induction l generalizing d with
  | nil => rfl
  | cons y l ih =>
    rw [List.cons_append, List.getLastD_cons]
    exact ih y

theorem not_mem_sep (c x : Char) (pre rest : List Char) (hx : c ≠ x) (h1 : c ∉ pre)
    (h2 : c ∉ rest) : c ∉ pre ++ (x :: [] ++ rest) := by
  simp only [List.mem_append, List.mem_singleton]
  rintro (h | h | h)
  · exact h1 h
  · exact hx h
  · exact h2 h

/-- The parse of a string with one run of k dots, k in 1..3, and no `;`. -/
theorem elementTypeLoop_dots_once (k : Nat) (hk : k = 1 ∨ k = 2 ∨ k = 3)
    (pre rest : List Char) (h1 : '.' ∉ pre) (h2 : '.' ∉ rest) (h3 : ';' ∉ pre)
    (h4 : ';' ∉ rest) :
    elementTypeLoop (pre ++ (List.replicate k '.' ++ rest)) digitIndicates =
      match atoi (trimSpace rest) with
      | none => .error "invalid element length"
      | some size =>
        if size > (10 : Int) ^ k then .error "invalid element length"
        else .ok { Type_ := trimSpace pre, Length := size, Fixed := false, Format := []
                   Encoding := [], LengthEncoding := [] } := by
  have hk0 : 0 < k := by omega
  have hloop := elementTypeLoop_dots (pre ++ (List.replicate k '.' ++ rest)) k hk
    (fun j hj _ => contains_replicate_lt '.' pre rest k j h1 h2 hj)
    (contains_replicate_self '.' pre rest k h1 hk0)
  obtain ⟨m, rfl⟩ : ∃ m, k = m + 1 := ⟨k - 1, by omega⟩
  have hs : ';' ∉ pre ++ ('.' :: List.replicate m '.' ++ rest) := by
    simp only [List.mem_append, List.mem_cons, List.mem_replicate]
    rintro (h | (h | h) | h)
    · exact h3 h
    · exact absurd h (by decide)
    · exact absurd h.2 (by decide)
    · exact h4 h
  have hv : contains ('.' :: List.replicate m '.') variableIndicate = true := by
    simp [contains, index, variableIndicate]
  rw [hloop]
  rw [List.replicate_succ, parseIndicate_once '.' _ pre rest h1 h2 hs]
  simp only [hv, Bool.not_true, Bool.not_false, Bool.true_and, decide_eq_true_eq,
    List.length_cons, List.length_replicate]

/-- The parse of a string with one dash, no dot and no `;`. -/
theorem elementTypeLoop_dash_once (pre rest : List Char) (h1 : '.' ∉ pre) (h2 : '.' ∉ rest)
    (h3 : ';' ∉ pre) (h4 : ';' ∉ rest) (h5 : '-' ∉ pre) (h6 : '-' ∉ rest) :
    elementTypeLoop (pre ++ ('-' :: [] ++ rest)) digitIndicates =
      match atoi (trimSpace rest) with
      | none => .error "invalid element length"
      | some size =>
        .ok { Type_ := trimSpace pre, Length := size, Fixed := true, Format := []
              Encoding := [], LengthEncoding := [] } := by
  have hv : contains ['-'] variableIndicate = false := by decide
  rw [elementTypeLoop_no_dot _ (not_mem_sep '.' '-' pre rest (by decide) h1 h2),
    contains_mid '-' [] pre rest h5]
  simp only [if_true]
  rw [parseIndicate_once '-' [] pre rest h5 h6 (not_mem_sep ';' '-' pre rest (by decide) h3 h4)]
  simp only [hv, Bool.not_false, Bool.not_true, Bool.false_and, Bool.false_eq_true, if_false]

/-- The parse of a string with one run of blanks, no dot, no dash and no `;`. -/
theorem elementTypeLoop_blank_run (m : Nat) (pre rest : List Char) (h1 : '.' ∉ pre)
    (h2 : '.' ∉ rest) (h3 : ';' ∉ pre) (h4 : ';' ∉ rest) (h5 : '-' ∉ pre) (h6 : '-' ∉ rest)
    (h7 : ' ' ∉ pre) (h8 : ' ' ∉ rest) :
    elementTypeLoop (pre ++ (List.replicate (m + 1) ' ' ++ rest)) digitIndicates =
      match atoi (trimSpace rest) with
      | none => .error "invalid element length"
      | some size =>
        .ok { Type_ := trimSpace pre, Length := size, Fixed := true, Format := []
              Encoding := [], LengthEncoding := [] } := by
  have hmem : ∀ c : Char, c ≠ ' ' → c ∉ pre → c ∉ rest →
      c ∉ pre ++ (List.replicate (m + 1) ' ' ++ rest) := by
    intro c hc hp hr
    simp only [List.mem_append, List.mem_replicate]
    rintro (h | h | h)
    · exact hp h
    · exact hc h.2
    · exact hr h
  have hv : contains [' '] variableIndicate = false := by decide
  have hb : contains (pre ++ (List.replicate (m + 1) ' ' ++ rest)) [' '] = true := by
    rw [List.replicate_succ]
    exact contains_mid ' ' [] pre (List.replicate m ' ' ++ rest) h7
  have hf : contains (pre ++ (List.replicate (m + 1) ' ' ++ rest)) formatIndicate = false :=
    contains_of_not_mem ';' [] _ (hmem ';' (by decide) h3 h4)
  rw [elementTypeLoop_no_dot _ (hmem '.' (by decide) h1 h2),
    contains_of_not_mem '-' [] _ (hmem '-' (by decide) h5 h6), hb]
  simp only [Bool.false_eq_true, if_false, if_true]
  unfold parseIndicate
  simp only [hf, Bool.false_eq_true, if_false, split_blank_run m pre rest h7 h8, hv,
    Bool.not_false, Bool.not_true, Bool.false_and, List.headD_cons]
  have hlast : (pre :: (List.replicate m ([] : List Char) ++ [rest])).getLastD [] = rest := by
    rw [List.getLastD_cons]
    exact getLastD_append_singleton _ rest pre
  rw [hlast]

theorem not_mem_append_blanks (c : Char) (hc : c ≠ ' ') (x : List Char) (n : Nat)
    (h : c ∉ x) : c ∉ x ++ List.replicate n ' ' ∧ c ∉ List.replicate n ' ' ++ x := by
  simp only [List.mem_append, List.mem_replicate, not_or, not_and]
  exact ⟨⟨h, fun _ => hc⟩, fun _ => hc, h⟩

/-! ## The claim on blanks around the indicator -/

/-- C15: for every indicator token `ind`, every tag without `.`, `-`, blank and
`;`, every string of decimal digits `num` and any two runs of blanks,
`Attribute.ElementType` returns on tag ++ blanks ++ ind ++ blanks ++ num the
same result, descriptor or failure, as on tag ++ ind ++ num. -/
theorem blanks_around_indicator (ind : List Char) (hind : ind ∈ digitIndicates)
    (tag num description : List Char)
    (hdot : '.' ∉ tag) (hdash : '-' ∉ tag) (hblank : ' ' ∉ tag) (hsemi : ';' ∉ tag)
    (hnum : ∀ c ∈ num, '0' ≤ c ∧ c ≤ '9') (n1 n2 : Nat) :
    (Attribute.mk (tag ++ List.replicate n1 ' ' ++ ind ++ List.replicate n2 ' ' ++ num)
        description).ElementType =
      (Attribute.mk (tag ++ ind ++ num) description).ElementType := by
  have hn : ∀ d : Char, (d.toNat < 48 ∨ 57 < d.toNat) → d ∉ num :=
    fun d hd h => digit_ne d d (hnum d h) hd rfl
  have hn1 : '.' ∉ num := hn '.' (by decide)
  have hn2 : '-' ∉ num := hn '-' (by decide)
  have hn3 : ' ' ∉ num := hn ' ' (by decide)
  have hn4 : ';' ∉ num := hn ';' (by decide)
  have hdots : ∀ k, k = 1 ∨ k = 2 ∨ k = 3 →
      elementTypeLoop
          (tag ++ List.replicate n1 ' ' ++ List.replicate k '.' ++ List.replicate n2 ' ' ++ num)
          digitIndicates =
        elementTypeLoop (tag ++ List.replicate k '.' ++ num) digitIndicates := by
    intro k hk
    have e1 : tag ++ List.replicate n1 ' ' ++ List.replicate k '.' ++ List.replicate n2 ' ' ++ num
        = (tag ++ List.replicate n1 ' ') ++ (List.replicate k '.' ++ (List.replicate n2 ' ' ++ num)) := by
      simp only [List.append_assoc]
    have e2 : tag ++ List.replicate k '.' ++ num = tag ++ (List.replicate k '.' ++ num) := by
      simp only [List.append_assoc]
    rw [e1, e2,
      elementTypeLoop_dots_once k hk _ _ (not_mem_append_blanks '.' (by decide) tag n1 hdot).1
        (not_mem_append_blanks '.' (by decide) num n2 hn1).2
        (not_mem_append_blanks ';' (by decide) tag n1 hsemi).1
        (not_mem_append_blanks ';' (by decide) num n2 hn4).2,
      elementTypeLoop_dots_once k hk tag num hdot hn1 hsemi hn4,
      trimSpace_replicate_left, trimSpace_replicate_right]
  have hdashes :
      elementTypeLoop
          (tag ++ List.replicate n1 ' ' ++ ['-'] ++ List.replicate n2 ' ' ++ num)
          digitIndicates =
        elementTypeLoop (tag ++ ['-'] ++ num) digitIndicates := by
    have e1 : tag ++ List.replicate n1 ' ' ++ ['-'] ++ List.replicate n2 ' ' ++ num
        = (tag ++ List.replicate n1 ' ') ++ ('-' :: [] ++ (List.replicate n2 ' ' ++ num)) := by
      simp only [List.append_assoc]
    have e2 : tag ++ ['-'] ++ num = tag ++ ('-' :: [] ++ num) := by
      simp only [List.append_assoc]
    rw [e1, e2,
      elementTypeLoop_dash_once _ _ (not_mem_append_blanks '.' (by decide) tag n1 hdot).1
        (not_mem_append_blanks '.' (by decide) num n2 hn1).2
        (not_mem_append_blanks ';' (by decide) tag n1 hsemi).1
        (not_mem_append_blanks ';' (by decide) num n2 hn4).2
        (not_mem_append_blanks '-' (by decide) tag n1 hdash).1
        (not_mem_append_blanks '-' (by decide) num n2 hn2).2,
      elementTypeLoop_dash_once tag num hdot hn1 hsemi hn4 hdash hn2,
      trimSpace_replicate_left, trimSpace_replicate_right]
  have hblanks :
      elementTypeLoop
          (tag ++ List.replicate n1 ' ' ++ [' '] ++ List.replicate n2 ' ' ++ num)
          digitIndicates =
        elementTypeLoop (tag ++ [' '] ++ num) digitIndicates := by
    have e1 : tag ++ List.replicate n1 ' ' ++ [' '] ++ List.replicate n2 ' ' ++ num
        = tag ++ (List.replicate (n1 + n2 + 1) ' ' ++ num) := by
      have : List.replicate (n1 + n2 + 1) ' ' =
          List.replicate n1 ' ' ++ ([' '] ++ List.replicate n2 ' ') := by
        rw [show n1 + n2 + 1 = n1 + (1 + n2) by omega, List.replicate_add,
          List.replicate_add]
        rfl
      rw [this]
      simp only [List.append_assoc]
    have e2 : tag ++ [' '] ++ num = tag ++ (List.replicate (0 + 1) ' ' ++ num) := by
      simp only [List.append_assoc]
      rfl
    rw [e1, e2, elementTypeLoop_blank_run (n1 + n2) tag num hdot hn1 hsemi hn4 hdash hn2 hblank hn3,
      elementTypeLoop_blank_run 0 tag num hdot hn1 hsemi hn4 hdash hn2 hblank hn3]
  simp only [digitIndicates, List.mem_cons, List.mem_singleton, List.not_mem_nil,
    or_false] at hind
  rcases hind with rfl | rfl | rfl | rfl | rfl
  · exact hdots 3 (by decide)
  · exact hdots 2 (by decide)
  · exact hdots 1 (by decide)
  · exact hdashes
  · exact hblanks

/-- Witness of C15: `an  .. 99` is read as `an..99`. -/
theorem blanks_around_indicator_witness :
    (Attribute.mk "an  .. 99".toList []).ElementType =
      (Attribute.mk "an..99".toList []).ElementType :=
  blanks_around_indicator "..".toList (by decide) "an".toList "99".toList []
    (by decide) (by decide) (by decide) (by decide) (by decide) 2 1

/-! ## The claim on the accepted data classes -/

/-- C14: an Element with the value "123456" and Length 6 passes
`Element.Validate` exactly when its data class is numeric, MTI, alphanumeric,
numeric-special or alphanumeric-special; alphabetic, special, indicate, binary,
bitmap, alpha-special, indicate-numeric and magnetic are rejected. -/
theorem validate_accepted_classes (t : DataClass) (format encoding lengthEncoding : List Char)
    (isFixed : Bool) (dataLength : Int) :
    ((Element.mk t 6 format encoding isFixed lengthEncoding "123456".toList dataLength).Validate
        = .ok () ↔
      t ∈ [DataClass.numeric, DataClass.mti, DataClass.alphaNumeric, DataClass.numericSpecial,
        DataClass.alphaNumericSpecial]) ∧
    (t ∈ [DataClass.alphabetic, DataClass.special, DataClass.indicate, DataClass.binary,
        DataClass.bitmap, DataClass.alphaSpecial, DataClass.indicateNumeric,
        DataClass.magnetic] →
      (Element.mk t 6 format encoding isFixed lengthEncoding "123456".toList dataLength).Validate
        = .error .consistencyError) := by
  have key : ∀ c : DataClass,
      ((if (!c.supported) = true then (Except.error ErrorKind.consistencyError : Except ErrorKind Unit)
          else if "123456".toList.all c.compatible = true then Except.ok ()
          else Except.error ErrorKind.consistencyError) = Except.ok () ↔
        c ∈ [DataClass.numeric, DataClass.mti, DataClass.alphaNumeric,
          DataClass.numericSpecial, DataClass.alphaNumericSpecial]) ∧
      (c ∈ [DataClass.alphabetic, DataClass.special, DataClass.indicate, DataClass.binary,
          DataClass.bitmap, DataClass.alphaSpecial, DataClass.indicateNumeric,
          DataClass.magnetic] →
        (if (!c.supported) = true then (Except.error ErrorKind.consistencyError : Except ErrorKind Unit)
          else if "123456".toList.all c.compatible = true then Except.ok ()
          else Except.error ErrorKind.consistencyError) = Except.error ErrorKind.consistencyError) := by
    intro c
    cases c <;> decide
  exact key t

end Iso8583
